import Mathlib

/-!
Shallow embedding of the ledger-normalization pipeline of `src/app.py`
(Analista de Extratos Bancários): amount parsing/formatting, date
normalization, table reconstruction (`processar_pdf`), the debit/credit
views, the glossary and inclusion filters, and the final summary step
(`apresentar_tarifas`).  Python strings are modelled as `String` / `List
Char`; pandas frames as lists of records; float amounts as exact decimal
fixed-point numbers (`Dec`), which agree with float64 on every value the
pipeline produces (sums of two-fractional-digit inputs).
-/

set_option maxHeartbeats 1000000

namespace Extrato

/-! ### Characters and digit strings -/

/-- Decimal digit test, by code point (48..57). -/
def isDigitChar (c : Char) : Bool := 48 ≤ c.toNat && c.toNat ≤ 57

/-- The character for the digit n (n < 10). -/
def digitChar : Nat → Char
  | 0 => '0' | 1 => '1' | 2 => '2' | 3 => '3' | 4 => '4'
  | 5 => '5' | 6 => '6' | 7 => '7' | 8 => '8' | _ => '9'

/-- Numeric value of a digit string (most significant first). -/
def digitsVal (cs : List Char) : Nat := cs.foldl (fun a c => a * 10 + (c.toNat - 48)) 0

/-- Decimal digits of a natural number, fuel-based so the kernel can reduce it. -/
def natDigitsAux : Nat → Nat → List Char
  | 0, _ => []
  | fuel+1, n => if n < 10 then [digitChar n] else natDigitsAux fuel (n / 10) ++ [digitChar (n % 10)]

/-- Decimal digits of a natural number, most significant first. -/
def natDigits (n : Nat) : List Char := natDigitsAux (n + 1) n

/-- Two-digit zero-padded rendering of n (used by strftime-style output and "%.2f"). -/
def pad2 (n : Nat) : List Char := if n < 10 then ['0', digitChar n] else natDigits n

theorem digitChar_toNat {n : Nat} (h : n < 10) : (digitChar n).toNat = 48 + n := by
  interval_cases n <;> rfl

theorem isDigitChar_digitChar (n : Nat) : isDigitChar (digitChar n) = true := by
  match n with
  | 0 | 1 | 2 | 3 | 4 | 5 | 6 | 7 | 8 => rfl
  | m + 9 => rfl

theorem natDigitsAux_irrel (f : Nat) : ∀ g n, n < f → n < g → natDigitsAux f n = natDigitsAux g n := by
  induction f with
  | zero => intro g n hf; omega
  | succ f ih =>
    intro g n hf hg
    cases g with
    | zero => omega
    | succ g =>
      simp only [natDigitsAux]
      by_cases h : n < 10
      · simp [h]
      · have hdiv : n / 10 < n := Nat.div_lt_self (by omega) (by omega)
        simp only [h, if_false]
        rw [ih g (n / 10) (by omega) (by omega)]

theorem natDigits_eq (n : Nat) :
    natDigits n = if n < 10 then [digitChar n] else natDigits (n / 10) ++ [digitChar (n % 10)] := by
  show natDigitsAux (n + 1) n = _
  by_cases h : n < 10
  · simp [natDigitsAux, h]
  · have hdiv : n / 10 < n := Nat.div_lt_self (by omega) (by omega)
    simp only [natDigitsAux, h, if_false]
    rw [natDigitsAux_irrel n (n / 10 + 1) (n / 10) (by omega) (by omega)]
    rfl

theorem natDigits_ne_nil (n : Nat) : natDigits n ≠ [] := by
  induction n using Nat.strong_induction_on with
  | _ n ih =>
    rw [natDigits_eq]
    by_cases h : n < 10
    · simp [h]
    · have hdiv : n / 10 < n := Nat.div_lt_self (by omega) (by omega)
      simp [h]

theorem natDigits_all_digit (n : Nat) : ∀ c ∈ natDigits n, isDigitChar c = true := by
  induction n using Nat.strong_induction_on with
  | _ n ih =>
    rw [natDigits_eq]
    by_cases h : n < 10
    · simp only [h, if_true, List.mem_singleton]
      intro c hc; subst hc; exact isDigitChar_digitChar n
    · have hdiv : n / 10 < n := Nat.div_lt_self (by omega) (by omega)
      simp only [h, if_false, List.mem_append, List.mem_singleton]
      intro c hc
      rcases hc with hc | hc
      · exact ih (n / 10) hdiv c hc
      · subst hc; exact isDigitChar_digitChar (n % 10)

theorem digitsVal_foldl (b : List Char) : ∀ acc : Nat,
    b.foldl (fun a c => a * 10 + (c.toNat - 48)) acc
      = acc * 10 ^ b.length + digitsVal b := by
  induction b with
  | nil => intro acc; simp [digitsVal]
  | cons c b ih =>
    intro acc
    simp only [List.foldl_cons, List.length_cons]
    rw [ih (acc * 10 + (c.toNat - 48))]
    have : digitsVal (c :: b) = (c.toNat - 48) * 10 ^ b.length + digitsVal b := by
      show List.foldl _ _ (c :: b) = _
      simp only [List.foldl_cons]
      rw [ih (0 * 10 + (c.toNat - 48))]
      ring_nf
    rw [this]; ring

theorem digitsVal_append (a b : List Char) :
    digitsVal (a ++ b) = digitsVal a * 10 ^ b.length + digitsVal b := by
  show List.foldl _ _ (a ++ b) = _
  rw [List.foldl_append, digitsVal_foldl]
  rfl

theorem digitsVal_natDigits (n : Nat) : digitsVal (natDigits n) = n := by
  induction n using Nat.strong_induction_on with
  | _ n ih =>
    rw [natDigits_eq]
    by_cases h : n < 10
    · simp only [h, if_true]
      show List.foldl _ _ _ = n
      simp [digitChar_toNat h]
    · have hdiv : n / 10 < n := Nat.div_lt_self (by omega) (by omega)
      simp only [h, if_false]
      rw [digitsVal_append, ih (n / 10) hdiv]
      have : digitsVal [digitChar (n % 10)] = n % 10 := by
        show List.foldl _ _ _ = n % 10
        simp [digitChar_toNat (Nat.mod_lt n (by omega))]
      simp only [List.length_singleton, this, pow_one]
      omega

theorem digitsVal_lt (cs : List Char) (h : ∀ c ∈ cs, isDigitChar c = true) :
    digitsVal cs < 10 ^ cs.length := by
  induction cs with
  | nil => simp [digitsVal]
  | cons c cs ih =>
    have hc : isDigitChar c = true := h c (List.mem_cons_self _ _)
    have hcs := ih (fun x hx => h x (List.mem_cons_of_mem _ hx))
    have h1 : digitsVal (c :: cs) = digitsVal [c] * 10 ^ cs.length + digitsVal cs := by
      have := digitsVal_append [c] cs
      simpa using this
    have h2 : digitsVal [c] = c.toNat - 48 := by
      show List.foldl _ _ _ = _
      simp
    have hval : digitsVal (c :: cs) = (c.toNat - 48) * 10 ^ cs.length + digitsVal cs := by
      rw [h1, h2]
    have hd : c.toNat - 48 ≤ 9 := by
      simp only [isDigitChar, Bool.and_eq_true, decide_eq_true_eq] at hc
      omega
    rw [hval]
    calc (c.toNat - 48) * 10 ^ cs.length + digitsVal cs
        ≤ 9 * 10 ^ cs.length + digitsVal cs := by
          have := Nat.mul_le_mul_right (10 ^ cs.length) hd; omega
      _ < 9 * 10 ^ cs.length + 10 ^ cs.length := by omega
      _ = 10 ^ (cs.length + 1) := by ring
      _ = 10 ^ (c :: cs).length := by simp

theorem pad2_len {n : Nat} (h : n ≤ 99) : (pad2 n).length = 2 := by
  unfold pad2
  by_cases h10 : n < 10
  · simp [h10]
  · rw [if_neg h10, natDigits_eq, if_neg h10, natDigits_eq]
    have : n / 10 < 10 := by omega
    simp [this]

theorem pad2_all_digit (n : Nat) : ∀ c ∈ pad2 n, isDigitChar c = true := by
  unfold pad2
  by_cases h10 : n < 10
  · simp only [h10, if_true, List.mem_cons, List.mem_singleton, List.not_mem_nil, or_false]
    intro c hc
    rcases hc with hc | hc
    · subst hc; decide
    · subst hc; exact isDigitChar_digitChar n
  · simp only [h10, if_false]
    exact natDigits_all_digit n

theorem digitsVal_pad2 {n : Nat} (_h : n ≤ 99) : digitsVal (pad2 n) = n := by
  unfold pad2
  by_cases h10 : n < 10
  · simp only [h10, if_true]
    show List.foldl _ _ _ = n
    simp [digitChar_toNat h10]
  · rw [if_neg h10]; exact digitsVal_natDigits n

theorem isDigitChar_ne {c : Char} (h : isDigitChar c = true) :
    c ≠ '/' ∧ c ≠ '.' ∧ c ≠ ',' ∧ c ≠ '-' := by
  refine ⟨?_, ?_, ?_, ?_⟩ <;> (intro hc; subst hc; exact absurd h (by decide))

/-! ### Splitting and joining on a separator (Python str.split / str.join) -/

/-- Python-style split on a single character: always returns at least one piece. -/
def splitOnChar (sep : Char) : List Char → List (List Char)
  | [] => [[]]
  | c :: rest =>
    let ps := splitOnChar sep rest
    if c = sep then [] :: ps
    else
      match ps with
      | [] => [[c]]
      | p :: ps2 => (c :: p) :: ps2

/-- Python-style join with a single-character separator. -/
def joinSep (sep : Char) : List (List Char) → List Char
  | [] => []
  | [p] => p
  | p :: ps => p ++ sep :: joinSep sep ps

theorem splitOnChar_ne_nil (sep : Char) (cs : List Char) : splitOnChar sep cs ≠ [] := by
  induction cs with
  | nil => simp [splitOnChar]
  | cons c rest ih =>
    simp only [splitOnChar]
    by_cases h : c = sep
    · simp [h]
    · simp only [h, if_false]
      match hps : splitOnChar sep rest with
      | [] => simp
      | p :: ps2 => simp

theorem splitOnChar_of_not_mem {sep : Char} {cs : List Char} (h : sep ∉ cs) :
    splitOnChar sep cs = [cs] := by
  induction cs with
  | nil => rfl
  | cons c rest ih =>
    have hc : c ≠ sep := fun hc => h (hc ▸ List.mem_cons_self _ _)
    have hrest : sep ∉ rest := fun hr => h (List.mem_cons_of_mem _ hr)
    simp only [splitOnChar, hc, if_false, ih hrest]

theorem splitOnChar_sep_free (sep : Char) (cs : List Char) :
    ∀ p ∈ splitOnChar sep cs, sep ∉ p := by
  induction cs with
  | nil =>
    intro p hp
    simp only [splitOnChar, List.mem_singleton] at hp
    subst hp; simp
  | cons c rest ih =>
    intro p hp
    simp only [splitOnChar] at hp
    by_cases h : c = sep
    · simp only [h, if_true] at hp
      rcases List.mem_cons.mp hp with hp | hp
      · subst hp; simp
      · exact ih p hp
    · simp only [h, if_false] at hp
      match hps : splitOnChar sep rest with
      | [] => exact absurd hps (splitOnChar_ne_nil sep rest)
      | q :: ps2 =>
        rw [hps] at hp
        rcases List.mem_cons.mp hp with hp | hp
        · subst hp
          intro hmem
          rcases List.mem_cons.mp hmem with hmem | hmem
          · exact h hmem.symm
          · exact ih q (hps ▸ List.mem_cons_self _ _) hmem
        · exact ih p (hps ▸ List.mem_cons_of_mem _ hp)

theorem splitOnChar_append_sep {sep : Char} {p : List Char} (hp : sep ∉ p) (rest : List Char) :
    splitOnChar sep (p ++ sep :: rest) = p :: splitOnChar sep rest := by
  induction p with
  | nil => simp [splitOnChar]
  | cons c p ih =>
    have hc : c ≠ sep := fun hc => hp (hc ▸ List.mem_cons_self _ _)
    have hp' : sep ∉ p := fun h => hp (List.mem_cons_of_mem _ h)
    simp only [List.cons_append, splitOnChar, hc, if_false]
    rw [show p.append (sep :: rest) = p ++ sep :: rest from rfl, ih hp']

theorem splitOnChar_joinSep {sep : Char} :
    ∀ ps : List (List Char), ps ≠ [] → (∀ p ∈ ps, sep ∉ p) →
      splitOnChar sep (joinSep sep ps) = ps := by
  intro ps
  induction ps with
  | nil => intro h; exact absurd rfl h
  | cons p ps ih =>
    intro _ hfree
    match ps with
    | [] =>
      show splitOnChar sep p = [p]
      exact splitOnChar_of_not_mem (hfree p (List.mem_cons_self _ _))
    | q :: ps2 =>
      show splitOnChar sep (p ++ sep :: joinSep sep (q :: ps2)) = _
      rw [splitOnChar_append_sep (hfree p (List.mem_cons_self _ _))]
      rw [ih (by simp) (fun x hx => hfree x (List.mem_cons_of_mem _ hx))]

/-! ### DateNormalizer: converter_data_para_dois_digitos (src/app.py:385-398)

Python: split the string on '/', and if there are exactly 3 parts and the
third has 4 characters, keep only its last two characters; otherwise return
the input unchanged.  (The NaN guard only applies to the empty-string case
in the string model.) -/

def converter_data_para_dois_digitos (data : String) : String :=
  if data = "" then data
  else
    match splitOnChar '/' data.toList with
    | [p0, p1, p2] =>
      if p2.length = 4 then String.mk (joinSep '/' [p0, p1, p2.drop 2]) else data
    | _ => data

/-! ### AmountParser: exact decimal model of the float amounts

The source parses amount cells with
pd.to_numeric(col.str.replace('.', '').str.replace(',', '.'), errors='coerce')
and renders totals with a Python f-string "%.2f".  Values are modelled as
exact decimal fixed-point numbers m * 10^(-e); float64 agrees with this
model on every value the pipeline produces. -/

def p10 (n : Nat) : Int := ((10 ^ n : Nat) : Int)

structure Dec where
  m : Int
  e : Nat
deriving DecidableEq

/-- Absolute value (pandas .abs()). -/
def Dec.abs (a : Dec) : Dec := ⟨(a.m.natAbs : Int), a.e⟩

/-- Addition at the common scale (pandas .sum() accumulation). -/
def Dec.add (a b : Dec) : Dec :=
  ⟨a.m * p10 (max a.e b.e - a.e) + b.m * p10 (max a.e b.e - b.e), max a.e b.e⟩

/-- Doubling (total * 2). -/
def Dec.double (a : Dec) : Dec := ⟨2 * a.m, a.e⟩

/-- Multiplication by a natural constant. -/
def Dec.mulNat (k : Nat) (a : Dec) : Dec := ⟨(k : Int) * a.m, a.e⟩

/-- Equality of the represented values: a.m/10^a.e = b.m/10^b.e. -/
def Dec.equiv (a b : Dec) : Prop := a.m * p10 b.e = b.m * p10 a.e

instance decidableDecEquiv (a b : Dec) : Decidable (Dec.equiv a b) :=
  inferInstanceAs (Decidable (a.m * p10 b.e = b.m * p10 a.e))

/-- The two str.replace calls: drop every '.', then turn each ',' into '.'. -/
def normalizeAmount (cs : List Char) : List Char :=
  (cs.filter (fun c => c ≠ '.')).map (fun c => if c = ',' then '.' else c)

/-- Decimal-literal parser modelling pd.to_numeric(errors='coerce') on plain
decimal strings (optional leading '-', digits, at most one '.'); anything
else is NaN, i.e. none.  (Exponent notation is never produced here.) -/
def parseDecChars (cs : List Char) : Option Dec :=
  let neg : Bool := cs.headD ' ' = '-'
  let cs1 := if neg then cs.tail else cs
  let sgn : Int := if neg then -1 else 1
  match splitOnChar '.' cs1 with
  | [ip] =>
    if !ip.isEmpty && ip.all isDigitChar then some ⟨sgn * (digitsVal ip : Int), 0⟩ else none
  | [ip, fp] =>
    if !(ip ++ fp).isEmpty && (ip ++ fp).all isDigitChar then
      some ⟨sgn * (digitsVal (ip ++ fp) : Int), fp.length⟩
    else none
  | _ => none

/-- AmountParser.parse: strip thousands dots, comma to dot, numeric parse. -/
def amount_parse (s : String) : Option Dec := parseDecChars (normalizeAmount s.toList)

/-- Python f"{x:.2f}": two fractional digits, '.' as decimal separator, no
thousands separator.  Exact whenever e ≤ 2 (always the case in the
pipeline); rounds half-up otherwise. -/
def format2f (d : Dec) : String :=
  let c : Int := if d.e ≤ 2 then d.m * p10 (2 - d.e)
                 else (d.m * 100 + p10 (d.e - 2) / 2) / p10 (d.e - 2)
  let n := c.natAbs
  String.mk ((if c < 0 then ['-'] else []) ++ (natDigits (n / 100) ++ '.' :: pad2 (n % 100)))

/-- col.apply(parse).abs().sum() with pandas' default skipna=True:
unparseable cells contribute nothing. -/
def sumAbsDec (vals : List String) : Dec :=
  vals.foldl
    (fun acc s =>
      match amount_parse s with
      | some d => Dec.add acc d.abs
      | none => acc)
    ⟨0, 0⟩

/-! ### DateNormalizer sort keys: pd.to_datetime(format="%d/%m/%y", errors="coerce")

strptime accepts 1-2 digit day and month, exactly 2 year digits, and
validates the calendar date; pandas maps two-digit years 00-68 to 2000+yy
and 69-99 to 1900+yy.  Unparseable cells become NaT, i.e. none. -/

def bissexto (y : Nat) : Bool := (y % 4 == 0 && y % 100 != 0) || y % 400 == 0

def daysInMonth (y m : Nat) : Nat :=
  if m = 2 then (if bissexto y then 29 else 28)
  else if m = 4 ∨ m = 6 ∨ m = 9 ∨ m = 11 then 30 else 31

/-- pandas' two-digit-year century rule: 00-68 is 2000s, 69-99 is 1900s. -/
def toYear (yy : Nat) : Nat := if yy ≤ 68 then 2000 + yy else 1900 + yy

def parseDataKey (s : String) : Option (Nat × Nat × Nat) :=
  match splitOnChar '/' s.toList with
  | [ds, ms, ys] =>
    if (ds.length = 1 ∨ ds.length = 2) ∧ (ms.length = 1 ∨ ms.length = 2) ∧ ys.length = 2 then
      if ds.all isDigitChar && ms.all isDigitChar && ys.all isDigitChar then
        if 1 ≤ digitsVal ds ∧ digitsVal ds ≤ daysInMonth (toYear (digitsVal ys)) (digitsVal ms)
            ∧ 1 ≤ digitsVal ms ∧ digitsVal ms ≤ 12 then
          some (toYear (digitsVal ys), digitsVal ms, digitsVal ds)
        else none
      else none
    else none
  | _ => none

/-- Total order on (year, month, day) keys, encoded as one number. -/
def keyNum (k : Nat × Nat × Nat) : Nat := k.1 * 10000 + k.2.1 * 100 + k.2.2

/-- strftime("%d/%m/%y") on a parsed key. -/
def renderKey (k : Nat × Nat × Nat) : List Char :=
  pad2 k.2.2 ++ '/' :: (pad2 k.2.1 ++ '/' :: pad2 (k.1 % 100))

/-! ### Data model: rows of the reconstructed statement -/

/-- A row of the full extrato frame: Data, Histórico, Docto., Crédito (R$),
Débito (R$), Saldo (R$). -/
structure Row6 where
  data : String
  historico : String
  docto : String
  credito : String
  debito : String
  saldo : String
deriving DecidableEq, Inhabited

/-- A row of a Debit (or Credit) view after the opposite amount column and
Saldo are dropped: Data, Histórico, Docto., and the remaining amount cell. -/
structure RowD where
  data : String
  historico : String
  docto : String
  valor : String
deriving DecidableEq, Inhabited

/-! ### TableReconstructor: processar_pdf (src/app.py:401-463)

A camelot table is a rectangular frame: a column count and a list of rows
of cells.  The pandas column count is frame-level, so it is carried
separately from the row data. -/

structure Grid where
  ncols : Nat
  rows : List (List String)
deriving DecidableEq, Inhabited

/-- ignorar_tabela (src/app.py:373-382): true iff some cell equals one of
the three fixed marketing/footer strings. -/
def ignorar_tabela (g : Grid) : Bool :=
  g.rows.any fun row =>
    row.any (fun c => c = "Fone Fácil Bradesco")
      || row.any (fun c => c = "Se Preferir, fale com a BIA pelo")
      || row.any (fun c => c = "Saldo Invest Fácil")

/-- Whether some cell of the grid equals the given string. -/
def containsCell (g : Grid) (s : String) : Bool :=
  g.rows.any fun row => row.any (fun c => c = s)

/-- Header stripping (src/app.py:427-430): drop everything up to and
including the first row containing the literal cell "Data". -/
def headerStrip (rows : List (List String)) : List (List String) :=
  match rows.findIdx? (fun row => row.any (fun c => c = "Data")) with
  | some i => rows.drop (i + 1)
  | none => rows

/-- Read the first six cells of a row into the canonical columns. -/
def toRow6 (row : List String) : Row6 :=
  ⟨row.getD 0 "", row.getD 1 "", row.getD 2 "", row.getD 3 "", row.getD 4 "", row.getD 5 ""⟩

/-- Column coercion (src/app.py:432-438).  pandas raises ValueError
("Length mismatch") when a list of 6 names is assigned to a frame whose
column count is not 6; in the ncols < 6 branch df.iloc[:, :6] keeps all
ncols columns, so the subsequent relabel raises as well.  Only a 6-column
frame survives. -/
def coerceColumns (ncols : Nat) (rows : List (List String)) : Except Unit (List Row6) :=
  if 6 ≤ ncols then
    if ncols = 6 then .ok (rows.map toRow6) else .error ()
  else .error ()

/-- One iteration of the table loop: skip ignored grids, strip the header,
coerce the columns. -/
def processGrid (g : Grid) : Except Unit (List Row6) :=
  if ignorar_tabela g then .ok []
  else coerceColumns g.ncols (headerStrip g.rows)

/-- The accumulation loop over all camelot tables; the first exception
aborts the whole loop (it propagates to processar_pdf's except handler). -/
def buildExtrato : List Grid → Except Unit (List Row6)
  | [] => .ok []
  | g :: gs =>
    match processGrid g with
    | .error e => .error e
    | .ok rs =>
      match buildExtrato gs with
      | .error e => .error e
      | .ok rest => .ok (rs ++ rest)

/-- Date forward fill (src/app.py:443): replace "" with NaN and ffill.
Rows before the first dated row keep an empty cell (NaN is observationally
"" for all later stages). -/
def ffillData (last : String) : List Row6 → List Row6
  | [] => []
  | r :: rest =>
    let d := if r.data = "" then last else r.data
    { r with data := d } :: ffillData d rest

/-- src/app.py:444: apply converter_data_para_dois_digitos to the Data column. -/
def aplicarConversao (rows : List Row6) : List Row6 :=
  rows.map fun r => { r with data := converter_data_para_dois_digitos r.data }

/-! #### Continuation-row merge (src/app.py:446-459) -/

/-- A continuation candidate: Docto., Crédito, Débito and Saldo all empty. -/
def isCont (r : Row6) : Bool :=
  r.docto = "" && r.credito = "" && r.debito = "" && r.saldo = ""

/-- Prepend the candidate's Histórico (plus one space) onto the next row's. -/
def appendHist (a b : Row6) : Row6 := { b with historico := a.historico ++ " " ++ b.historico }

/-- linhas_vazias: the candidate indices, computed on the frame before any
merging or dropping. -/
def contIdx (rows : List Row6) : List Nat :=
  (List.range rows.length).filter fun i => isCont (rows.getD i default)

/-- One step of the merge loop: if idx+1 is in range, rewrite the Histórico
of row idx+1 from the current state of the frame. -/
def mergeAt (rows : List Row6) (idx : Nat) : List Row6 :=
  if idx + 1 < rows.length then
    rows.set (idx + 1) (appendHist (rows.getD idx default) (rows.getD (idx + 1) default))
  else rows

/-- The for-loop over linhas_vazias, in ascending index order. -/
def applyMerges (rows : List Row6) : List Row6 := (contIdx rows).foldl mergeAt rows

/-- extrato.drop(linhas_vazias): drop the rows whose original index is a
candidate index (k is the positional label of the head). -/
def dropIdxAux (idxs : List Nat) : Nat → List Row6 → List Row6
  | _, [] => []
  | k, r :: rest =>
    if k ∈ idxs then dropIdxAux idxs (k + 1) rest else r :: dropIdxAux idxs (k + 1) rest

/-- The whole continuation merge: update into successors, then drop the
candidate rows. -/
def mergeContinuations (rows : List Row6) : List Row6 :=
  dropIdxAux (contIdx rows) 0 (applyMerges rows)

/-- Modelled from the spec (§4.3 step 6): recursive statement of the
continuation merge — every candidate's Histórico flows (with one space)
into the row after it and the candidate disappears; a trailing candidate
just disappears.  Used as the specification against which the index-based
loop of the source is verified. -/
def mergeSpec : List Row6 → List Row6
  | [] => []
  | [r] => if isCont r then [] else [r]
  | r :: s :: rest2 =>
    if isCont r then mergeSpec (appendHist r s :: rest2)
    else r :: mergeSpec (s :: rest2)
termination_by l => l.length

/-- processar_pdf (src/app.py:401-463): concatenate the surviving grids,
forward-fill and normalize dates, merge continuation rows.  Any pandas
exception is caught by the enclosing try/except, which reports an error
and returns None. -/
def processar_pdf (grids : List Grid) : Option (List Row6) :=
  match buildExtrato grids with
  | .error _ => none
  | .ok extrato => some (mergeContinuations (aplicarConversao (ffillData "" extrato)))

/-! ### LedgerClassifier: filtrar_debitos (src/app.py:466-475) -/

/-- Keep rows whose Débito cell is non-empty, drop Crédito and Saldo. -/
def filtrar_debitos (rows : List Row6) : List RowD :=
  (rows.filter fun r => r.debito ≠ "").map fun r => ⟨r.data, r.historico, r.docto, r.debito⟩

/-- Symmetric credit view. -/
def filtrar_creditos (rows : List Row6) : List RowD :=
  (rows.filter fun r => r.credito ≠ "").map fun r => ⟨r.data, r.historico, r.docto, r.credito⟩

/-! ### GlossaryMatcher: filtrar_por_glossario (src/app.py:354-361)

The fuzzywuzzy scorer is an external library; the matcher predicate
(fun h => match_glossary h glossary threshold) is passed in abstractly. -/

def filtrar_por_glossario (rows : List RowD) (glossary : List String)
    (matcher : String → Bool) : List RowD :=
  if rows.isEmpty || glossary.isEmpty then []
  else rows.filter fun r => matcher r.historico

/-! ### InclusionFilter: the "Confirmar Inclusão" step (src/app.py:649-675) -/

/-- Keep only the rows whose Histórico was selected; an empty selection
produces an empty frame (pd.DataFrame()) with only a warning. -/
def confirmar_inclusao (base : List RowD) (selected : List String) : List RowD :=
  if selected.isEmpty then []
  else base.filter fun r => r.historico ∈ selected

/-! ### SummaryAggregator: apresentar_tarifas (src/app.py:679-736) -/

def isDated (r : RowD) : Bool := (parseDataKey r.data).isSome

/-- Sort key of a row (only meaningful on dated rows). -/
def rKeyN (r : RowD) : Nat :=
  match parseDataKey r.data with
  | some k => keyNum k
  | none => 0

/-- Stable insertion into a sorted list (earlier rows stay before equal keys). -/
def sInsert (r : RowD) : List RowD → List RowD
  | [] => [r]
  | s :: rest => if rKeyN r ≤ rKeyN s then r :: s :: rest else s :: sInsert r rest

/-- Stable insertion sort by date key. -/
def insSort : List RowD → List RowD
  | [] => []
  | r :: rest => sInsert r (insSort rest)

/-- df.sort_values(by="Data") after pd.to_datetime(errors='coerce'):
pandas nargsort orders the non-NaT rows by key and appends the NaT rows in
their original order (na_position='last').  Tie order among equal dates is
unspecified in the source (quicksort); the model uses a stable sort. -/
def sort_values_data (rows : List RowD) : List RowD :=
  insSort (rows.filter isDated) ++ rows.filter fun r => !isDated r

/-- .dt.strftime("%d/%m/%y") followed by .fillna(""): dated cells are
re-rendered, NaT cells become the empty string. -/
def strftimeFix (r : RowD) : RowD :=
  match parseDataKey r.data with
  | some k => { r with data := String.mk (renderKey k) }
  | none => { r with data := "" }

/-- src/app.py:733-736: force Data to "" on every row whose Histórico is
one of the two synthesized labels. -/
def forceTotals (r : RowD) : RowD :=
  if r.historico = "Valor Total (R$)" || r.historico = "Em dobro (R$)" then { r with data := "" }
  else r

/-- The synthesized Total row. -/
def valorTotalRow (t : Dec) : RowD := ⟨"", "Valor Total (R$)", "", format2f t⟩

/-- The synthesized Double row. -/
def emDobroRow (t : Dec) : RowD := ⟨"", "Em dobro (R$)", "", format2f t.double⟩

/-- apresentar_tarifas: guarded on a non-empty view (src/app.py:679-688,
an empty view only produces a warning and no report); computes the
absolute-value total of the amount column, appends the two synthesized
rows, sorts by date with NaT last, re-renders the dates and forces the
synthesized rows' Data cells to "". -/
def apresentar_tarifas (rows : List RowD) : Option (List RowD) :=
  if rows.isEmpty then none
  else
    let total := sumAbsDec (rows.map fun r => r.valor)
    let comTotais := rows ++ [valorTotalRow total, emDobroRow total]
    some (((sort_values_data comTotais).map strftimeFix).map forceTotals)

/-! ### Helper lemmas about the date-year converter -/

theorem converter_of_three {s : String} {p0 p1 p2 : List Char}
    (hsp : splitOnChar '/' s.toList = [p0, p1, p2]) (hlen : p2.length = 4) :
    converter_data_para_dois_digitos s = String.mk (joinSep '/' [p0, p1, p2.drop 2]) := by
  have hs : s ≠ "" := by
    intro h; subst h
    have : splitOnChar '/' ("" : String).toList = [[]] := rfl
    rw [this] at hsp
    simp at hsp
  unfold converter_data_para_dois_digitos
  rw [if_neg hs, hsp]
  simp [hlen]

theorem converter_other {s : String}
    (h : ∀ p0 p1 p2, splitOnChar '/' s.toList = [p0, p1, p2] → p2.length ≠ 4) :
    converter_data_para_dois_digitos s = s := by
  unfold converter_data_para_dois_digitos
  by_cases h0 : s = ""
  · rw [if_pos h0]
  · rw [if_neg h0]
    cases hsp : splitOnChar '/' s.toList with
    | nil => rfl
    | cons p0 ps =>
      cases ps with
      | nil => rfl
      | cons p1 ps2 =>
        cases ps2 with
        | nil => rfl
        | cons p2 ps3 =>
          cases ps3 with
          | nil => simp only []; rw [if_neg (h p0 p1 p2 hsp)]
          | cons q qs => rfl

theorem converter_idem (s : String) :
    converter_data_para_dois_digitos (converter_data_para_dois_digitos s)
      = converter_data_para_dois_digitos s := by
  by_cases hcase : ∃ p0 p1 p2, splitOnChar '/' s.toList = [p0, p1, p2] ∧ p2.length = 4
  · obtain ⟨p0, p1, p2, hsp, hlen⟩ := hcase
    have h0 : '/' ∉ p0 := splitOnChar_sep_free '/' s.toList p0 (by rw [hsp]; simp)
    have h1 : '/' ∉ p1 := splitOnChar_sep_free '/' s.toList p1 (by rw [hsp]; simp)
    have h2 : '/' ∉ p2 := splitOnChar_sep_free '/' s.toList p2 (by rw [hsp]; simp)
    have h2' : '/' ∉ p2.drop 2 := fun hm => h2 (List.mem_of_mem_drop hm)
    rw [converter_of_three hsp hlen]
    have hsp2 : splitOnChar '/' (String.mk (joinSep '/' [p0, p1, p2.drop 2])).toList
        = [p0, p1, p2.drop 2] := by
      show splitOnChar '/' (joinSep '/' [p0, p1, p2.drop 2]) = _
      refine splitOnChar_joinSep _ (by simp) ?_
      intro p hp
      rcases List.mem_cons.mp hp with hp | hp
      · subst hp; exact h0
      rcases List.mem_cons.mp hp with hp | hp
      · subst hp; exact h1
      rcases List.mem_cons.mp hp with hp | hp
      · subst hp; exact h2'
      · simp at hp
    apply converter_other
    intro q0 q1 q2 hq
    rw [hsp2] at hq
    injection hq with e0 hq; injection hq with e1 hq; injection hq with e2 _
    subst e2
    simp [List.length_drop, hlen]
  · have hother : converter_data_para_dois_digitos s = s := by
      apply converter_other
      intro p0 p1 p2 hsp hlen
      exact hcase ⟨p0, p1, p2, hsp, hlen⟩
    rw [hother, hother]

/-- C8: converter_data_para_dois_digitos turns a four-digit year segment of
a slash-delimited date into its last two digits and is claimed to leave
every other input unchanged and be idempotent.  Counterexample to the
claim as stated: "aa/bb/cccc" is not a date and its third segment has four
non-digit characters, yet the function rewrites it to "aa/bb/cc" (the code
tests segment length, not digitness). -/
theorem C8_year_segment_cex :
    converter_data_para_dois_digitos "aa/bb/cccc" = "aa/bb/cc"
      ∧ ("aa/bb/cc" : String) ≠ "aa/bb/cccc" := by
  exact ⟨by decide, by decide⟩

/-- C8 (amended): for every input string, the function rewrites a
slash-delimited string with exactly three segments whose third segment has
four characters (digit or not) by keeping the last two characters of that
segment, returns every other input unchanged, and is idempotent;
"05/03/2023" becomes "05/03/23", and "05/03/23" and "not-a-date" are fixed
points. -/
theorem C8_year_segment_amended (s : String) :
    converter_data_para_dois_digitos (converter_data_para_dois_digitos s)
        = converter_data_para_dois_digitos s ∧
    converter_data_para_dois_digitos s =
      (match splitOnChar '/' s.toList with
       | [p0, p1, p2] =>
         if p2.length = 4 then String.mk (p0 ++ '/' :: (p1 ++ '/' :: p2.drop 2)) else s
       | _ => s) ∧
    converter_data_para_dois_digitos "05/03/2023" = "05/03/23" ∧
    converter_data_para_dois_digitos "05/03/23" = "05/03/23" ∧
    converter_data_para_dois_digitos "not-a-date" = "not-a-date" := by
  refine ⟨converter_idem s, ?_, by decide, by decide, by decide⟩
  cases hsp : splitOnChar '/' s.toList with
  | nil => exact absurd hsp (splitOnChar_ne_nil _ _)
  | cons p0 ps =>
    cases ps with
    | nil => exact converter_other (by intro q0 q1 q2 hq; rw [hsp] at hq; simp at hq)
    | cons p1 ps2 =>
      cases ps2 with
      | nil => exact converter_other (by intro q0 q1 q2 hq; rw [hsp] at hq; simp at hq)
      | cons p2 ps3 =>
        cases ps3 with
        | nil =>
          show converter_data_para_dois_digitos s =
            if p2.length = 4 then String.mk (p0 ++ '/' :: (p1 ++ '/' :: p2.drop 2)) else s
          by_cases hlen : p2.length = 4
          · rw [if_pos hlen, converter_of_three hsp hlen]; rfl
          · rw [if_neg hlen]
            exact converter_other
              (by intro q0 q1 q2 hq; rw [hsp] at hq
                  injection hq with e0 hq; injection hq with e1 hq; injection hq with e2 _
                  subst e2; exact hlen)
        | cons q qs =>
          exact converter_other (by intro q0 q1 q2 hq; rw [hsp] at hq; simp at hq)

/-- C9: confirmar_inclusao keeps exactly the rows whose Histórico is in the
selection; an empty selection applied to a non-empty view yields the empty
view (a warning, not an error). -/
theorem C9_inclusion_filter :
    (∀ (base : List RowD) (selected : List String),
        confirmar_inclusao base selected = base.filter fun r => r.historico ∈ selected) ∧
    confirmar_inclusao [⟨"01/01/23", "TARIFA X", "1", "9,90"⟩] [] = [] := by
  constructor
  · intro base selected
    unfold confirmar_inclusao
    by_cases h : selected.isEmpty
    · rw [if_pos h]
      have hsel : selected = [] := by
        cases selected with
        | nil => rfl
        | cons a l => simp [List.isEmpty] at h
      subst hsel
      induction base with
      | nil => rfl
      | cons r rest ih => simp only [List.filter_cons]; rw [← ih]; rfl
    · rw [if_neg h]
  · rfl

/-- C4 counterexample: given the empty Debit view, the summary step is
guarded out (src/app.py:679-688) and produces no report at all, instead of
the claimed two-row zero-total report. -/
theorem C4_empty_view_cex : apresentar_tarifas ([] : List RowD) = none := rfl

/-- C4 (amended): the summary step produces no report exactly on the empty
view (the guard skips it with a warning; it never fails on a non-empty
view), while the earlier stages accept an empty Ledger or View and
propagate it as an empty output. -/
theorem C4_empty_handling_amended :
    (∀ rows : List RowD, apresentar_tarifas rows = none ↔ rows = []) ∧
    filtrar_debitos [] = [] ∧
    filtrar_creditos [] = [] ∧
    (∀ (gl : List String) (matcher : String → Bool), filtrar_por_glossario [] gl matcher = []) ∧
    (∀ selected : List String, confirmar_inclusao [] selected = []) := by
  refine ⟨?_, rfl, rfl, fun gl matcher => rfl, ?_⟩
  · intro rows
    cases rows with
    | nil => simp [apresentar_tarifas]
    | cons r rest => simp [apresentar_tarifas]
  · intro selected
    unfold confirmar_inclusao
    by_cases h : selected.isEmpty
    · rw [if_pos h]
    · rw [if_neg h]; rfl

/-! ### Helper lemmas for the amount round trip -/

theorem map_id_of_eq {α : Type} (f : α → α) :
    ∀ l : List α, (∀ x ∈ l, f x = x) → l.map f = l := by
  intro l
  induction l with
  | nil => intro _; rfl
  | cons a l ih =>
    intro h
    simp only [List.map_cons]
    rw [h a (List.mem_cons_self _ _), ih (fun x hx => h x (List.mem_cons_of_mem _ hx))]

theorem filter_eq_self_of_all {α : Type} (p : α → Bool) :
    ∀ l : List α, (∀ x ∈ l, p x = true) → l.filter p = l := by
  intro l
  induction l with
  | nil => intro _; rfl
  | cons a l ih =>
    intro h
    simp only [List.filter_cons, h a (List.mem_cons_self _ _), if_true]
    rw [ih (fun x hx => h x (List.mem_cons_of_mem _ hx))]

/-- normalizeAmount is the identity on a string of decimal digits. -/
theorem normalizeAmount_digits {cs : List Char} (h : ∀ c ∈ cs, isDigitChar c = true) :
    normalizeAmount cs = cs := by
  unfold normalizeAmount
  have h1 : cs.filter (fun c => c ≠ '.') = cs := by
    apply filter_eq_self_of_all
    intro c hc
    simp only [decide_eq_true_eq]
    exact (isDigitChar_ne (h c hc)).2.1
  rw [h1]
  apply map_id_of_eq
  intro c hc
  have : c ≠ ',' := (isDigitChar_ne (h c hc)).2.2.1
  simp [this]

/-- parseDecChars on a non-empty all-digit string yields its value at scale 0. -/
theorem parseDecChars_digits {ds : List Char} (hne : ds ≠ [])
    (hdig : ∀ c ∈ ds, isDigitChar c = true) :
    parseDecChars ds = some ⟨(digitsVal ds : Int), 0⟩ := by
  obtain ⟨c, rest, rfl⟩ := List.exists_cons_of_ne_nil hne
  have hc : isDigitChar c = true := hdig c (List.mem_cons_self _ _)
  have hcm : c ≠ '-' := (isDigitChar_ne hc).2.2.2
  have hdot : '.' ∉ c :: rest := by
    intro hm
    exact absurd (hdig '.' hm) (by decide)
  unfold parseDecChars
  simp only [List.headD_cons, hcm, decide_False, if_false, Bool.false_eq_true]
  rw [splitOnChar_of_not_mem hdot]
  have hall : (c :: rest).all isDigitChar = true := List.all_eq_true.mpr hdig
  simp [hall]

theorem p10_zero : p10 0 = 1 := rfl

/-- Evaluation of the Python "%.2f" rendering on a nonnegative 2-decimal value. -/
theorem format2f_cents (n : Nat) :
    format2f ⟨(n : Int), 2⟩ = String.mk (natDigits (n / 100) ++ '.' :: pad2 (n % 100)) := by
  unfold format2f
  have he : (2 : Nat) ≤ 2 := le_refl 2
  simp only [he, if_true, Nat.sub_self, p10_zero, mul_one]
  have hnn : ¬((n : Int) < 0) := not_lt.mpr (Int.natCast_nonneg n)
  simp only [hnn, if_false, Int.natAbs_ofNat, List.nil_append]

/-- C5 counterexample: the round-trip law fails — formatting 1.00 gives
"1.00", whose dot is then stripped as a thousands separator, so parsing
returns 100, not 1. -/
theorem C5_roundtrip_cex :
    amount_parse (format2f ⟨100, 2⟩) = some ⟨100, 0⟩ ∧ ¬ Dec.equiv ⟨100, 0⟩ ⟨100, 2⟩ := by
  exact ⟨by decide, by decide⟩

/-- C5 (amended): for every representable non-negative decimal x with two
fractional digits (x = n/100), AmountParser.parse(AmountParser.format(x))
equals 100 * x: the "%.2f" dot is consumed as a thousands separator, so the
parsed value is the cent count n itself. -/
theorem C5_roundtrip_amended (n : Nat) :
    amount_parse (format2f ⟨(n : Int), 2⟩) = some ⟨(n : Int), 0⟩ ∧
    Dec.equiv ⟨(n : Int), 0⟩ (Dec.mulNat 100 ⟨(n : Int), 2⟩) := by
  constructor
  · rw [format2f_cents]
    unfold amount_parse
    have htl : (String.mk (natDigits (n / 100) ++ '.' :: pad2 (n % 100))).toList
        = natDigits (n / 100) ++ '.' :: pad2 (n % 100) := rfl
    rw [htl]
    have hd1 := natDigits_all_digit (n / 100)
    have hd2 := pad2_all_digit (n % 100)
    have hnorm : normalizeAmount (natDigits (n / 100) ++ '.' :: pad2 (n % 100))
        = natDigits (n / 100) ++ pad2 (n % 100) := by
      unfold normalizeAmount
      rw [List.filter_append, List.filter_cons]
      have hdotfalse : (('.' : Char) ≠ '.' : Bool) = false := by decide
      simp only [hdotfalse]
      rw [filter_eq_self_of_all _ _ (fun c hc => by
            simp only [decide_eq_true_eq]; exact (isDigitChar_ne (hd1 c hc)).2.1),
          filter_eq_self_of_all _ _ (fun c hc => by
            simp only [decide_eq_true_eq]; exact (isDigitChar_ne (hd2 c hc)).2.1)]
      apply map_id_of_eq
      intro c hc
      rcases List.mem_append.mp hc with hc | hc
      · have : c ≠ ',' := (isDigitChar_ne (hd1 c hc)).2.2.1
        simp [this]
      · have : c ≠ ',' := (isDigitChar_ne (hd2 c hc)).2.2.1
        simp [this]
    rw [hnorm]
    have hall : ∀ c ∈ natDigits (n / 100) ++ pad2 (n % 100), isDigitChar c = true := by
      intro c hc
      rcases List.mem_append.mp hc with hc | hc
      · exact hd1 c hc
      · exact hd2 c hc
    rw [parseDecChars_digits (by simp [natDigits_ne_nil]) hall]
    have hval : digitsVal (natDigits (n / 100) ++ pad2 (n % 100)) = n := by
      rw [digitsVal_append, digitsVal_natDigits, pad2_len (by omega), digitsVal_pad2 (by omega)]
      omega
    rw [hval]
  · show (n : Int) * p10 2 = ((100 : Nat) : Int) * (n : Int) * p10 0
    unfold p10
    push_cast
    ring

/-! ### Decomposition of the summary step -/

theorem apresentar_tarifas_cons (r : RowD) (rest : List RowD) :
    apresentar_tarifas (r :: rest) =
      some (((sort_values_data ((r :: rest) ++
          [valorTotalRow (sumAbsDec ((r :: rest).map fun x => x.valor)),
           emDobroRow (sumAbsDec ((r :: rest).map fun x => x.valor))])).map strftimeFix).map
        forceTotals) := rfl

theorem sort_values_decomp (view : List RowD) (t1 t2 : RowD)
    (h1 : isDated t1 = false) (h2 : isDated t2 = false) :
    sort_values_data (view ++ [t1, t2]) =
      insSort (view.filter isDated) ++ ((view.filter fun r => !isDated r) ++ [t1, t2]) := by
  unfold sort_values_data
  rw [List.filter_append, List.filter_append]
  simp [List.filter_cons, h1, h2]

theorem sort_values_decomp_totais (view : List RowD) (t : Dec) :
    sort_values_data (view ++ [valorTotalRow t, emDobroRow t]) =
      insSort (view.filter isDated) ++
        ((view.filter fun r => !isDated r) ++ [valorTotalRow t, emDobroRow t]) :=
  sort_values_decomp view _ _ rfl rfl

theorem fix_valorTotalRow (t : Dec) :
    forceTotals (strftimeFix (valorTotalRow t)) = valorTotalRow t := rfl

theorem fix_emDobroRow (t : Dec) :
    forceTotals (strftimeFix (emDobroRow t)) = emDobroRow t := rfl

/-- The general shape of every produced report: sorted dated block, undated
block, then the two synthesized rows. -/
theorem apresentar_decomp (view : List RowD) (hne : view ≠ []) :
    apresentar_tarifas view = some (
      ((insSort (view.filter isDated)).map strftimeFix).map forceTotals ++
      (((view.filter fun r => !isDated r).map strftimeFix).map forceTotals ++
       [valorTotalRow (sumAbsDec (view.map fun r => r.valor)),
        emDobroRow (sumAbsDec (view.map fun r => r.valor))])) := by
  obtain ⟨r, rest, rfl⟩ := List.exists_cons_of_ne_nil hne
  rw [apresentar_tarifas_cons, sort_values_decomp_totais]
  rw [List.map_append, List.map_append, List.map_append, List.map_append]
  simp only [List.map_cons, List.map_nil]
  rw [fix_valorTotalRow, fix_emDobroRow]

/-- C1 counterexample: a Debit view whose amount cells are "10,00" and
"5,50" produces Total and Double rows rendered "15.50" and "31.00" by the
Python "%.2f" f-string — a dot decimal separator, not the claimed
decimal-comma rendering "15,50" / "31,00". -/
theorem C1_total_format_cex :
    apresentar_tarifas
        [⟨"01/02/23", "TARIFA BANCARIA", "123", "10,00"⟩,
         ⟨"02/02/23", "TARIFA BANCARIA", "124", "5,50"⟩]
      = some
        [⟨"01/02/23", "TARIFA BANCARIA", "123", "10,00"⟩,
         ⟨"02/02/23", "TARIFA BANCARIA", "124", "5,50"⟩,
         ⟨"", "Valor Total (R$)", "", "15.50"⟩,
         ⟨"", "Em dobro (R$)", "", "31.00"⟩]
      ∧ ("15.50" : String) ≠ "15,50" ∧ ("31.00" : String) ≠ "31,00" := by
  exact ⟨by decide, by decide, by decide⟩

/-- C1 (amended): for every Debit view whose amount column contains exactly
"10,00" and "5,50" (dates and descriptions arbitrary), the report ends with
a Total row valued "15.50" and a Double row valued "31.00" — two fractional
digits with a dot decimal separator and no thousands separator, as produced
by the "%.2f" f-string. -/
theorem C1_total_format_amended (d1 h1 c1 d2 h2 c2 : String) :
    ∃ pre, apresentar_tarifas [⟨d1, h1, c1, "10,00"⟩, ⟨d2, h2, c2, "5,50"⟩]
      = some (pre ++ [⟨"", "Valor Total (R$)", "", "15.50"⟩, ⟨"", "Em dobro (R$)", "", "31.00"⟩]) := by
  have htot : sumAbsDec ([(⟨d1, h1, c1, "10,00"⟩ : RowD), ⟨d2, h2, c2, "5,50"⟩].map fun r => r.valor)
      = ⟨1550, 2⟩ := by
    show sumAbsDec ["10,00", "5,50"] = _
    decide
  have hv : valorTotalRow ⟨1550, 2⟩ = ⟨"", "Valor Total (R$)", "", "15.50"⟩ := by decide
  have he : emDobroRow ⟨1550, 2⟩ = ⟨"", "Em dobro (R$)", "", "31.00"⟩ := by decide
  have hmain := apresentar_decomp [(⟨d1, h1, c1, "10,00"⟩ : RowD), ⟨d2, h2, c2, "5,50"⟩] (by simp)
  rw [htot, hv, he, ← List.append_assoc] at hmain
  exact ⟨_, hmain⟩

/-! ### Equivalence of the index-based continuation merge with its
recursive specification -/

theorem isCont_appendHist (a b : Row6) : isCont (appendHist a b) = isCont b := rfl

theorem contIdx_cons (r : Row6) (rows : List Row6) :
    contIdx (r :: rows) = (if isCont r then [0] else []) ++ (contIdx rows).map (· + 1) := by
  unfold contIdx
  rw [List.length_cons, List.range_succ_eq_map, List.filter_cons]
  simp only [List.getD_cons_zero]
  rw [List.filter_map]
  have hcomp : ((fun i => isCont ((r :: rows).getD i default)) ∘ Nat.succ)
      = fun i => isCont (rows.getD i default) := by
    funext i
    simp [Function.comp, List.getD_cons_succ]
  rw [hcomp]
  have hsucc : (Nat.succ : Nat → Nat) = (· + 1) := funext fun n => rfl
  rw [hsucc]
  by_cases h : isCont r
  · simp [h]
  · simp [h]

theorem mergeAt_cons (r : Row6) (rows : List Row6) (i : Nat) :
    mergeAt (r :: rows) (i + 1) = r :: mergeAt rows i := by
  unfold mergeAt
  by_cases h : i + 1 < rows.length
  · have h' : i + 1 + 1 < (r :: rows).length := by simp; omega
    rw [if_pos h', if_pos h]
    simp [List.getD_cons_succ]
  · have h' : ¬(i + 1 + 1 < (r :: rows).length) := by simp; omega
    rw [if_neg h', if_neg h]

theorem foldl_mergeAt_map_succ (idxs : List Nat) :
    ∀ (r : Row6) (rows : List Row6),
      (idxs.map (· + 1)).foldl mergeAt (r :: rows) = r :: idxs.foldl mergeAt rows := by
  induction idxs with
  | nil => intro r rows; rfl
  | cons i idxs ih =>
    intro r rows
    simp only [List.map_cons, List.foldl_cons]
    rw [mergeAt_cons, ih]

theorem dropIdxAux_cons_mem {idxs : List Nat} {k : Nat} (h : k ∈ idxs) (r : Row6)
    (rest : List Row6) :
    dropIdxAux idxs k (r :: rest) = dropIdxAux idxs (k + 1) rest := by
  unfold dropIdxAux; rw [if_pos h]
  cases rest with
  | nil => rfl
  | cons a l => rfl

theorem dropIdxAux_cons_not_mem {idxs : List Nat} {k : Nat} (h : k ∉ idxs) (r : Row6)
    (rest : List Row6) :
    dropIdxAux idxs k (r :: rest) = r :: dropIdxAux idxs (k + 1) rest := by
  unfold dropIdxAux; rw [if_neg h]
  cases rest with
  | nil => rfl
  | cons a l => rfl

theorem dropIdxAux_shift (idxs : List Nat) (rows : List Row6) :
    ∀ k : Nat, dropIdxAux (idxs.map (· + 1)) (k + 1) rows = dropIdxAux idxs k rows := by
  induction rows with
  | nil => intro k; rfl
  | cons r rest ih =>
    intro k
    have hmem : (k + 1 ∈ idxs.map (· + 1)) ↔ (k ∈ idxs) := by
      constructor
      · intro hh
        obtain ⟨a, ha, hak⟩ := List.mem_map.mp hh
        have : a = k := by omega
        subst this; exact ha
      · intro hh
        exact List.mem_map.mpr ⟨k, hh, rfl⟩
    by_cases h : k ∈ idxs
    · rw [dropIdxAux_cons_mem (hmem.mpr h) r rest, dropIdxAux_cons_mem h r rest, ih]
    · rw [dropIdxAux_cons_not_mem (fun hh => h (hmem.mp hh)) r rest,
          dropIdxAux_cons_not_mem h r rest, ih]

theorem dropIdxAux_zero_cons_shift (idxs : List Nat) (rows : List Row6) :
    ∀ k : Nat, dropIdxAux (0 :: idxs.map (· + 1)) (k + 1) rows = dropIdxAux idxs k rows := by
  induction rows with
  | nil => intro k; rfl
  | cons r rest ih =>
    intro k
    have hmem : (k + 1 ∈ 0 :: idxs.map (· + 1)) ↔ (k ∈ idxs) := by
      constructor
      · intro hh
        rcases List.mem_cons.mp hh with hh | hh
        · omega
        · obtain ⟨a, ha, hak⟩ := List.mem_map.mp hh
          have : a = k := by omega
          subst this; exact ha
      · intro hh
        exact List.mem_cons_of_mem _ (List.mem_map.mpr ⟨k, hh, rfl⟩)
    by_cases h : k ∈ idxs
    · rw [dropIdxAux_cons_mem (hmem.mpr h) r rest, dropIdxAux_cons_mem h r rest, ih]
    · rw [dropIdxAux_cons_not_mem (fun hh => h (hmem.mp hh)) r rest,
          dropIdxAux_cons_not_mem h r rest, ih]

theorem mergeSpec_nil : mergeSpec [] = [] := by simp [mergeSpec]

theorem mergeSpec_cons_cand {r s : Row6} (hc : isCont r = true) (rest2 : List Row6) :
    mergeSpec (r :: s :: rest2) = mergeSpec (appendHist r s :: rest2) := by
  simp [mergeSpec, hc]

theorem mergeSpec_singleton_cand {r : Row6} (hc : isCont r = true) : mergeSpec [r] = [] := by
  simp [mergeSpec, hc]

theorem mergeSpec_cons_not_cand {r : Row6} (hc : isCont r = false) (rest : List Row6) :
    mergeSpec (r :: rest) = r :: mergeSpec rest := by
  cases rest with
  | nil => simp [mergeSpec, hc]
  | cons s rest2 => simp [mergeSpec, hc]

theorem mergeContinuations_cons_cand {r s : Row6} (hc : isCont r = true) (rest2 : List Row6) :
    mergeContinuations (r :: s :: rest2) = mergeContinuations (appendHist r s :: rest2) := by
  have hcsame : contIdx (appendHist r s :: rest2) = contIdx (s :: rest2) := by
    rw [contIdx_cons, contIdx_cons, isCont_appendHist]
  unfold mergeContinuations applyMerges
  rw [contIdx_cons r (s :: rest2), if_pos hc]
  simp only [List.singleton_append, List.foldl_cons]
  have hma : mergeAt (r :: s :: rest2) 0 = r :: appendHist r s :: rest2 := by
    unfold mergeAt
    rw [if_pos (by simp)]
    simp [List.getD_cons_zero, List.getD_cons_succ]
  rw [hma, ← hcsame, foldl_mergeAt_map_succ,
      dropIdxAux_cons_mem (List.mem_cons_self _ _), dropIdxAux_zero_cons_shift]

theorem mergeContinuations_cons_not_cand {r : Row6} (hc : isCont r = false)
    (rest : List Row6) :
    mergeContinuations (r :: rest) = r :: mergeContinuations rest := by
  unfold mergeContinuations applyMerges
  rw [contIdx_cons r rest, if_neg (by simp [hc])]
  simp only [List.nil_append]
  rw [foldl_mergeAt_map_succ,
      dropIdxAux_cons_not_mem (by simp), dropIdxAux_shift]

theorem merge_eq_spec_len : ∀ (n : Nat) (rows : List Row6), rows.length ≤ n →
    mergeContinuations rows = mergeSpec rows := by
  intro n
  induction n with
  | zero =>
    intro rows h
    have : rows = [] := List.eq_nil_of_length_eq_zero (Nat.le_zero.mp h)
    subst this; rw [mergeSpec_nil]; rfl
  | succ n ih =>
    intro rows h
    cases rows with
    | nil => rw [mergeSpec_nil]; rfl
    | cons r rest =>
      by_cases hc : isCont r
      · cases rest with
        | nil =>
          have hci : contIdx [r] = [0] := by
            rw [contIdx_cons, if_pos hc]; rfl
          unfold mergeContinuations applyMerges
          rw [hci, mergeSpec_singleton_cand hc]
          simp only [List.foldl_cons, List.foldl_nil]
          have hma : mergeAt [r] 0 = [r] := by
            unfold mergeAt; rw [if_neg (by simp)]
          rw [hma, dropIdxAux_cons_mem (List.mem_cons_self _ _)]
          rfl
        | cons s rest2 =>
          rw [mergeContinuations_cons_cand hc rest2,
              ih _ (by simp at h ⊢; omega),
              mergeSpec_cons_cand hc rest2]
      · have hc' : isCont r = false := by simpa using hc
        rw [mergeContinuations_cons_not_cand hc' rest, mergeSpec_cons_not_cand hc' rest,
            ih rest (by simp at h; omega)]

/-- The pandas index-loop merge coincides with the recursive specification. -/
theorem merge_eq_spec (rows : List Row6) : mergeContinuations rows = mergeSpec rows :=
  merge_eq_spec_len rows.length rows (le_refl _)

/-- C6: every continuation candidate's Histórico is concatenated (with one
space) onto the next row's before the candidate is dropped — stated as the
equivalence of the index-based loop with the recursive cascade mergeSpec —
and the two-row instance merges to exactly one row with Description
"PARTE A PARTE B". -/
theorem C6_continuation_merge :
    (∀ rows : List Row6, mergeContinuations rows = mergeSpec rows) ∧
    mergeContinuations
        [⟨"", "PARTE A", "", "", "", ""⟩, ⟨"01/02/23", "PARTE B", "123", "", "10,00", ""⟩]
      = [⟨"01/02/23", "PARTE A PARTE B", "123", "", "10,00", ""⟩] := by
  exact ⟨merge_eq_spec, by decide⟩

theorem mergeSpec_snoc_cand {r : Row6} (hc : isCont r = true) :
    ∀ (n : Nat) (ys : List Row6), ys.length ≤ n → mergeSpec (ys ++ [r]) = mergeSpec ys := by
  intro n
  induction n with
  | zero =>
    intro ys h
    have : ys = [] := List.eq_nil_of_length_eq_zero (Nat.le_zero.mp h)
    subst this
    simp only [List.nil_append]
    rw [mergeSpec_singleton_cand hc, mergeSpec_nil]
  | succ n ih =>
    intro ys h
    cases ys with
    | nil =>
      simp only [List.nil_append]
      rw [mergeSpec_singleton_cand hc, mergeSpec_nil]
    | cons a ys' =>
      by_cases hca : isCont a
      · cases ys' with
        | nil =>
          show mergeSpec (a :: [r]) = mergeSpec [a]
          rw [mergeSpec_cons_cand hca, mergeSpec_singleton_cand hca,
              mergeSpec_singleton_cand (by rw [isCont_appendHist]; exact hca ▸ hc)]
        | cons b ys'' =>
          show mergeSpec (a :: b :: (ys'' ++ [r])) = mergeSpec (a :: b :: ys'')
          rw [mergeSpec_cons_cand hca, mergeSpec_cons_cand hca, ← List.cons_append]
          exact ih _ (by simp at h ⊢; omega)
      · have hca' : isCont a = false := by simpa using hca
        show mergeSpec (a :: (ys' ++ [r])) = mergeSpec (a :: ys')
        rw [mergeSpec_cons_not_cand hca', mergeSpec_cons_not_cand hca',
            ih ys' (by simp at h; omega)]

/-- C10: a continuation candidate that is the last row of the Ledger is
simply removed, its Description silently discarded: the merged result is
exactly the merge of the Ledger without that row (in particular the loop
never indexes past the end — the functions are total). -/
theorem C10_last_candidate_dropped (ys : List Row6) (r : Row6) (hc : isCont r = true) :
    mergeContinuations (ys ++ [r]) = mergeContinuations ys := by
  rw [merge_eq_spec, merge_eq_spec, mergeSpec_snoc_cand hc ys.length ys (le_refl _)]

/-- Witness for C10 at a concrete Ledger whose last row is a candidate. -/
theorem C10_last_candidate_dropped_witness :
    isCont ⟨"", "PARTE A", "", "", "", ""⟩ = true ∧
    mergeContinuations
        ([⟨"01/02/23", "PARTE B", "123", "", "10,00", ""⟩] ++ [⟨"", "PARTE A", "", "", "", ""⟩])
      = mergeContinuations [⟨"01/02/23", "PARTE B", "123", "", "10,00", ""⟩] :=
  ⟨by decide, C10_last_candidate_dropped _ _ (by decide)⟩

/-! ### Column coercion and noise rejection -/

/-- C2: the claim says a grid with 6+ cells per row is truncated to its
first 6 and a narrower grid is tolerated, the run never aborting.  In the
code, assigning the 6 canonical names raises a pandas ValueError for any
column count other than 6 (the ncols < 6 branch's iloc[:, :6] is a no-op),
and processar_pdf's except handler then aborts the whole run, returning
None: a 5-column grid and a 7-column grid each return None, while the same
data in a 6-column grid processes fine. -/
theorem C2_column_mismatch_aborts :
    processar_pdf [⟨5, [["01/01/23", "TARIFA", "12", "", "5,00"]]⟩] = none ∧
    processar_pdf [⟨7, [["01/01/23", "TARIFA", "12", "", "5,00", "100,00", "x"]]⟩] = none ∧
    processar_pdf [⟨6, [["01/01/23", "TARIFA", "12", "", "5,00", "100,00"]]⟩]
      = some [⟨"01/01/23", "TARIFA", "12", "", "5,00", "100,00"⟩] := by
  exact ⟨by decide, by decide, by decide⟩

theorem ignorar_of_contains {g : Grid} (h : containsCell g "Fone Fácil Bradesco" = true) :
    ignorar_tabela g = true := by
  unfold containsCell at h
  unfold ignorar_tabela
  rw [List.any_eq_true] at h ⊢
  obtain ⟨row, hrow, hcell⟩ := h
  refine ⟨row, hrow, ?_⟩
  simp only [Bool.or_eq_true]
  exact Or.inl (Or.inl hcell)

theorem buildExtrato_cons (g : Grid) (gs : List Grid) :
    buildExtrato (g :: gs) =
      match processGrid g with
      | .error e => .error e
      | .ok rs =>
        match buildExtrato gs with
        | .error e => .error e
        | .ok rest => .ok (rs ++ rest) := rfl

theorem buildExtrato_skip {g : Grid} (hg : processGrid g = .ok []) :
    ∀ (pre post : List Grid), buildExtrato (pre ++ g :: post) = buildExtrato (pre ++ post) := by
  intro pre
  induction pre with
  | nil =>
    intro post
    show buildExtrato (g :: post) = buildExtrato post
    rw [buildExtrato_cons, hg]
    cases hb : buildExtrato post with
    | error e => rfl
    | ok rest => simp
  | cons g0 pre ih =>
    intro post
    rw [List.cons_append, List.cons_append, buildExtrato_cons, buildExtrato_cons, ih post]

/-- C7: a grid containing the literal cell "Fone Fácil Bradesco" anywhere
is discarded whole, before any other processing step, and contributes zero
rows: the reconstruction of any grid sequence containing it equals the
reconstruction with that grid deleted. -/
theorem C7_noise_grid_discarded (pre post : List Grid) (g : Grid)
    (h : containsCell g "Fone Fácil Bradesco" = true) :
    processar_pdf (pre ++ g :: post) = processar_pdf (pre ++ post) := by
  have hg : processGrid g = .ok [] := by
    unfold processGrid
    rw [if_pos (ignorar_of_contains h)]
  unfold processar_pdf
  rw [buildExtrato_skip hg pre post]

/-- Witness for C7: a one-row noise grid inserted before a data grid. -/
theorem C7_noise_grid_discarded_witness :
    containsCell ⟨6, [["Fone Fácil Bradesco", "", "", "", "", ""]]⟩ "Fone Fácil Bradesco" = true ∧
    processar_pdf
        ([] ++ (⟨6, [["Fone Fácil Bradesco", "", "", "", "", ""]]⟩ : Grid) ::
          [⟨6, [["01/01/23", "TARIFA", "12", "", "5,00", "100,00"]]⟩])
      = processar_pdf ([] ++ [⟨6, [["01/01/23", "TARIFA", "12", "", "5,00", "100,00"]]⟩]) :=
  ⟨by decide,
   C7_noise_grid_discarded [] [⟨6, [["01/01/23", "TARIFA", "12", "", "5,00", "100,00"]]⟩] _
     (by decide)⟩

/-! ### Sorting lemmas -/

theorem mem_sInsert {x r : RowD} : ∀ {l : List RowD}, x ∈ sInsert r l → x = r ∨ x ∈ l := by
  intro l
  induction l with
  | nil =>
    intro h
    simp only [sInsert, List.mem_singleton] at h
    exact Or.inl h
  | cons s rest ih =>
    intro h
    unfold sInsert at h
    by_cases hle : rKeyN r ≤ rKeyN s
    · rw [if_pos hle] at h
      rcases List.mem_cons.mp h with h | h
      · exact Or.inl h
      · exact Or.inr h
    · rw [if_neg hle] at h
      rcases List.mem_cons.mp h with h | h
      · exact Or.inr (h ▸ List.mem_cons_self _ _)
      · rcases ih h with h | h
        · exact Or.inl h
        · exact Or.inr (List.mem_cons_of_mem _ h)

theorem mem_insSort {x : RowD} : ∀ {l : List RowD}, x ∈ insSort l → x ∈ l := by
  intro l
  induction l with
  | nil => intro h; simp [insSort] at h
  | cons r rest ih =>
    intro h
    rcases mem_sInsert h with h | h
    · exact h ▸ List.mem_cons_self _ _
    · exact List.mem_cons_of_mem _ (ih h)

theorem pairwise_sInsert {r : RowD} :
    ∀ {l : List RowD}, l.Pairwise (fun a b => rKeyN a ≤ rKeyN b) →
      (sInsert r l).Pairwise (fun a b => rKeyN a ≤ rKeyN b) := by
  intro l
  induction l with
  | nil => intro _; simp [sInsert]
  | cons s rest ih =>
    intro hp
    obtain ⟨hs, hrest⟩ := List.pairwise_cons.mp hp
    unfold sInsert
    by_cases hle : rKeyN r ≤ rKeyN s
    · rw [if_pos hle]
      refine List.pairwise_cons.mpr ⟨?_, hp⟩
      intro x hx
      rcases List.mem_cons.mp hx with hx | hx
      · exact hx ▸ hle
      · exact le_trans hle (hs x hx)
    · rw [if_neg hle]
      refine List.pairwise_cons.mpr ⟨?_, ih hrest⟩
      intro x hx
      rcases mem_sInsert hx with hx | hx
      · subst hx; omega
      · exact hs x hx

theorem pairwise_insSort : ∀ l : List RowD,
    (insSort l).Pairwise (fun a b => rKeyN a ≤ rKeyN b) := by
  intro l
  induction l with
  | nil => simp [insSort]
  | cons r rest ih => exact pairwise_sInsert ih

/-! ### Round trip of date parsing and strftime re-rendering -/

theorem daysInMonth_le (y m : Nat) : daysInMonth y m ≤ 31 := by
  unfold daysInMonth
  split_ifs <;> omega

theorem parseDataKey_shape {s : String} {y m d : Nat} (h : parseDataKey s = some (y, m, d)) :
    1 ≤ d ∧ d ≤ daysInMonth y m ∧ 1 ≤ m ∧ m ≤ 12 ∧
      ((y % 100 ≤ 68 ∧ y = 2000 + y % 100) ∨ (69 ≤ y % 100 ∧ y = 1900 + y % 100)) := by
  unfold parseDataKey at h
  split at h
  case h_2 => exact absurd h (by simp)
  case h_1 ds ms ys heq =>
    split at h
    case isFalse => exact absurd h (by simp)
    case isTrue hlen =>
      split at h
      case isFalse => exact absurd h (by simp)
      case isTrue hdig =>
        split at h
        case isFalse => exact absurd h (by simp)
        case isTrue hrange =>
          have hys : digitsVal ys ≤ 99 := by
            have hdig' : ∀ c ∈ ys, isDigitChar c = true :=
              List.all_eq_true.mp (by
                simp only [Bool.and_eq_true] at hdig
                exact hdig.2)
            have := digitsVal_lt ys hdig'
            rw [hlen.2.2] at this
            omega
          injection h with h
          have hy : toYear (digitsVal ys) = y := congrArg Prod.fst h
          have hm : digitsVal ms = m := congrArg (fun p => p.2.1) h
          have hd : digitsVal ds = d := congrArg (fun p => p.2.2) h
          subst hy; subst hm; subst hd
          refine ⟨hrange.1, hrange.2.1, hrange.2.2.1, hrange.2.2.2, ?_⟩
          unfold toYear
          by_cases hyy : digitsVal ys ≤ 68
          · left
            rw [if_pos hyy]
            omega
          · right
            rw [if_neg hyy]
            omega


theorem parseDataKey_render {y m d : Nat}
    (hd1 : 1 ≤ d) (hd2 : d ≤ daysInMonth y m) (hm1 : 1 ≤ m) (hm2 : m ≤ 12)
    (hy : (y % 100 ≤ 68 ∧ y = 2000 + y % 100) ∨ (69 ≤ y % 100 ∧ y = 1900 + y % 100)) :
    parseDataKey (String.mk (renderKey (y, m, d))) = some (y, m, d) := by
  have hd99 : d ≤ 99 := le_trans hd2 (le_trans (daysInMonth_le y m) (by omega))
  have hm99 : m ≤ 99 := by omega
  have hy99 : y % 100 ≤ 99 := by omega
  have hfd : '/' ∉ pad2 d := fun hmem => absurd (pad2_all_digit d _ hmem) (by decide)
  have hfm : '/' ∉ pad2 m := fun hmem => absurd (pad2_all_digit m _ hmem) (by decide)
  have hfy : '/' ∉ pad2 (y % 100) :=
    fun hmem => absurd (pad2_all_digit (y % 100) _ hmem) (by decide)
  have htl : (String.mk (renderKey (y, m, d))).toList
      = pad2 d ++ '/' :: (pad2 m ++ '/' :: pad2 (y % 100)) := rfl
  have hsp : splitOnChar '/' (pad2 d ++ '/' :: (pad2 m ++ '/' :: pad2 (y % 100)))
      = [pad2 d, pad2 m, pad2 (y % 100)] := by
    rw [splitOnChar_append_sep hfd, splitOnChar_append_sep hfm, splitOnChar_of_not_mem hfy]
  unfold parseDataKey
  rw [htl, hsp]
  split
  case h_2 hne => exact absurd rfl (hne (pad2 d) (pad2 m) (pad2 (y % 100)))
  case h_1 ds ms ys heq =>
    injection heq with e1 heq
    injection heq with e2 heq
    injection heq with e3 _
    subst e1; subst e2; subst e3
    have hlen : ((pad2 d).length = 1 ∨ (pad2 d).length = 2) ∧
        ((pad2 m).length = 1 ∨ (pad2 m).length = 2) ∧ (pad2 (y % 100)).length = 2 :=
      ⟨Or.inr (pad2_len hd99), Or.inr (pad2_len hm99), pad2_len hy99⟩
    rw [if_pos hlen]
    have hdig : ((pad2 d).all isDigitChar && (pad2 m).all isDigitChar
        && (pad2 (y % 100)).all isDigitChar) = true := by
      simp only [Bool.and_eq_true]
      exact ⟨⟨List.all_eq_true.mpr (pad2_all_digit d), List.all_eq_true.mpr (pad2_all_digit m)⟩,
        List.all_eq_true.mpr (pad2_all_digit (y % 100))⟩
    rw [if_pos hdig, digitsVal_pad2 hd99, digitsVal_pad2 hm99, digitsVal_pad2 hy99]
    have hty : toYear (y % 100) = y := by
      unfold toYear
      rcases hy with ⟨h68, hrep⟩ | ⟨h69, hrep⟩
      · rw [if_pos h68]; omega
      · rw [if_neg (by omega)]; omega
    rw [hty, if_pos ⟨hd1, hd2, hm1, hm2⟩]

theorem rKeyN_eq_of_parse {r : RowD} {k : Nat × Nat × Nat}
    (h : parseDataKey r.data = some k) : rKeyN r = keyNum k := by
  unfold rKeyN
  rw [h]

theorem parse_none_of_not_dated {x : RowD} (h : isDated x = false) :
    parseDataKey x.data = none := by
  unfold isDated at h
  cases hp : parseDataKey x.data with
  | none => rfl
  | some k => rw [hp] at h; simp at h

/-- Effect of strftime + the forced empty Data on a dated, unlabeled row. -/
theorem fix_dated {x : RowD} {k : Nat × Nat × Nat} (hk : parseDataKey x.data = some k)
    (hl1 : x.historico ≠ "Valor Total (R$)") (hl2 : x.historico ≠ "Em dobro (R$)") :
    forceTotals (strftimeFix x) = ⟨String.mk (renderKey k), x.historico, x.docto, x.valor⟩ ∧
    parseDataKey (forceTotals (strftimeFix x)).data = some k := by
  have h1 : strftimeFix x = ⟨String.mk (renderKey k), x.historico, x.docto, x.valor⟩ := by
    unfold strftimeFix
    rw [hk]
  have h2 : forceTotals ⟨String.mk (renderKey k), x.historico, x.docto, x.valor⟩
      = ⟨String.mk (renderKey k), x.historico, x.docto, x.valor⟩ := by
    unfold forceTotals
    rw [if_neg (by simp [hl1, hl2])]
  obtain ⟨y, m, d⟩ := k
  have hshape := parseDataKey_shape hk
  refine ⟨by rw [h1, h2], ?_⟩
  rw [h1, h2]
  exact parseDataKey_render hshape.1 hshape.2.1 hshape.2.2.1 hshape.2.2.2.1 hshape.2.2.2.2

/-- Effect of strftime + the forced empty Data on an undated row. -/
theorem fix_undated {x : RowD} (h : parseDataKey x.data = none) :
    (forceTotals (strftimeFix x)).data = "" := by
  have h1 : strftimeFix x = ⟨"", x.historico, x.docto, x.valor⟩ := by
    unfold strftimeFix
    rw [h]
  rw [h1]
  unfold forceTotals
  split <;> rfl

/-- Modelled from the claim: the row-order property C3 asserts of every
Final Report Table — a block of rows with parseable dates in ascending
order, then a block of rows with empty Data, then the synthesized Total and
Double rows, in that order and with empty Data. -/
def finalOrderOk (out : List RowD) : Prop :=
  ∃ A B vt vd,
    out = A ++ B ++ [⟨"", "Valor Total (R$)", "", vt⟩, ⟨"", "Em dobro (R$)", "", vd⟩] ∧
    (∀ r ∈ A, (parseDataKey r.data).isSome = true) ∧
    A.Pairwise (fun a b => rKeyN a ≤ rKeyN b) ∧
    (∀ r ∈ B, r.data = "")

/-- C3 counterexample: a view row whose Description happens to be
"Valor Total (R$)" and carries a valid date between two other dated rows
has its Date cell cleared in place by the final forcing step
(src/app.py:733-736), so an empty-dated row sits between two dated rows —
the claimed order of every Final Report Table is violated. -/
theorem C3_order_cex :
    apresentar_tarifas
        [⟨"01/01/23", "TARIFA A", "1", "10,00"⟩,
         ⟨"02/01/23", "Valor Total (R$)", "2", "10,00"⟩,
         ⟨"03/01/23", "TARIFA B", "3", "10,00"⟩]
      = some
        [⟨"01/01/23", "TARIFA A", "1", "10,00"⟩,
         ⟨"", "Valor Total (R$)", "2", "10,00"⟩,
         ⟨"03/01/23", "TARIFA B", "3", "10,00"⟩,
         ⟨"", "Valor Total (R$)", "", "30.00"⟩,
         ⟨"", "Em dobro (R$)", "", "60.00"⟩]
      ∧ ¬ finalOrderOk
        [⟨"01/01/23", "TARIFA A", "1", "10,00"⟩,
         ⟨"", "Valor Total (R$)", "2", "10,00"⟩,
         ⟨"03/01/23", "TARIFA B", "3", "10,00"⟩,
         ⟨"", "Valor Total (R$)", "", "30.00"⟩,
         ⟨"", "Em dobro (R$)", "", "60.00"⟩] := by
  constructor
  · decide
  · rintro ⟨A, B, vt, vd, heq, hA, _hp, hB⟩
    rcases A with _ | ⟨a0, _ | ⟨a1, A2⟩⟩
    · rw [List.nil_append] at heq
      rcases B with _ | ⟨b0, _ | ⟨b1, _ | ⟨b2, B3⟩⟩⟩
      · simp at heq
      · simp at heq
      · simp at heq
      · rcases B3 with _ | ⟨b3, B4⟩
        · simp only [List.cons_append, List.nil_append, List.cons.injEq] at heq
          obtain ⟨h0, h1, h2, _⟩ := heq
          have hmem : b2 ∈ [b0, b1, b2] := by simp
          have hb := hB b2 hmem
          rw [← h2] at hb
          exact absurd hb (by decide)
        · rcases B4 with _ | ⟨b4, B5⟩ <;> simp at heq
    · rcases B with _ | ⟨b0, _ | ⟨b1, B2⟩⟩
      · simp at heq
      · simp at heq
      · rcases B2 with _ | ⟨b2, B3⟩
        · simp only [List.cons_append, List.nil_append, List.cons.injEq] at heq
          obtain ⟨h0, h1, h2, _⟩ := heq
          have hb := hB b1 (by simp)
          rw [← h2] at hb
          exact absurd hb (by decide)
        · rcases B3 with _ | ⟨b3, B4⟩ <;> simp at heq
    · simp only [List.cons_append, List.cons.injEq] at heq
      obtain ⟨h0, h1, _⟩ := heq
      have ha := hA a1 (by simp)
      rw [← h1] at ha
      exact absurd ha (by decide)

/-- C3 (amended): for every non-empty view none of whose rows carries one
of the two synthesized labels as its Description, the produced report is a
block of parseable-dated rows in ascending chronological order, then the
rows with empty dates, then the Total row and the Double row, both with
empty Data.  (A view row labeled "Valor Total (R$)" or "Em dobro (R$)"
would instead keep its sorted position with its Date cell cleared.) -/
theorem C3_order_amended (view : List RowD) (hne : view ≠ [])
    (hlab : ∀ r ∈ view, r.historico ≠ "Valor Total (R$)" ∧ r.historico ≠ "Em dobro (R$)") :
    ∃ out, apresentar_tarifas view = some out ∧ finalOrderOk out := by
  refine ⟨_, apresentar_decomp view hne, ?_⟩
  refine ⟨((insSort (view.filter isDated)).map strftimeFix).map forceTotals,
          ((view.filter fun r => !isDated r).map strftimeFix).map forceTotals,
          format2f (sumAbsDec (view.map fun r => r.valor)),
          format2f (Dec.double (sumAbsDec (view.map fun r => r.valor))), ?_, ?_, ?_, ?_⟩
  · rw [List.append_assoc]
    rfl
  · intro r hr
    obtain ⟨x1, hx1, rfl⟩ := List.mem_map.mp hr
    obtain ⟨x, hx, rfl⟩ := List.mem_map.mp hx1
    have hxin : x ∈ view.filter isDated := mem_insSort hx
    obtain ⟨hxview, hxdated⟩ := List.mem_filter.mp hxin
    obtain ⟨k, hk⟩ := Option.isSome_iff_exists.mp hxdated
    obtain ⟨hl1, hl2⟩ := hlab x hxview
    rw [(fix_dated hk hl1 hl2).2]
    rfl
  · rw [List.pairwise_map, List.pairwise_map]
    refine List.Pairwise.imp_of_mem ?_ (pairwise_insSort (view.filter isDated))
    intro a b ha hb hab
    obtain ⟨haview, hadated⟩ := List.mem_filter.mp (mem_insSort ha)
    obtain ⟨hbview, hbdated⟩ := List.mem_filter.mp (mem_insSort hb)
    obtain ⟨ka, hka⟩ := Option.isSome_iff_exists.mp hadated
    obtain ⟨kb, hkb⟩ := Option.isSome_iff_exists.mp hbdated
    obtain ⟨hal1, hal2⟩ := hlab a haview
    obtain ⟨hbl1, hbl2⟩ := hlab b hbview
    rw [rKeyN_eq_of_parse (fix_dated hka hal1 hal2).2,
        rKeyN_eq_of_parse (fix_dated hkb hbl1 hbl2).2]
    rw [rKeyN_eq_of_parse hka, rKeyN_eq_of_parse hkb] at hab
    exact hab
  · intro r hr
    obtain ⟨x1, hx1, rfl⟩ := List.mem_map.mp hr
    obtain ⟨x, hx, rfl⟩ := List.mem_map.mp hx1
    obtain ⟨hxview, hxnd⟩ := List.mem_filter.mp hx
    have : isDated x = false := by
      cases h : isDated x
      · rfl
      · rw [h] at hxnd; simp at hxnd
    exact fix_undated (parse_none_of_not_dated this)

/-- Witness for C3 (amended) at the spec's end-to-end two-row debit view. -/
theorem C3_order_amended_witness :
    ∃ out, apresentar_tarifas
        [⟨"02/01/23", "TARIFA PACOTE", "7", "20,00"⟩,
         ⟨"01/01/23", "TARIFA PACOTE", "8", "30,00"⟩]
      = some out ∧ finalOrderOk out :=
  C3_order_amended _ (by decide) (by decide)

end Extrato
